import Mathlib

/-!
Verification of `src/src/random_walk.cpp` (repository mark-andrews/norbertr).

The C++ function `random_walk(b, a, v, t_eps)` simulates one trajectory of a
random walk between an upper absorbing barrier `a` and a lower barrier `0`:

  delta = sqrt(t_eps);  p = 0.5 * (1 + v * delta);  x = a * b;  tic = 0;
  do { r = runif(0,1); if (r < p) x += delta else x -= delta; tic++; }
  while (x < a && x > 0);
  choice = if (x > a) then 1 else 0;
  return (choice, tic * t_eps)

Embedding choices.  Arithmetic is modelled exactly over the rationals.  The
random source `R::runif(0, 1)` is made explicit: the loop consumes successive
draws from a caller-supplied list, and a run that exhausts the list before the
barrier test fires is an unfinished (non-terminating within the given
randomness) run, modelled by `none`.  Since `sqrt t_eps` is irrational for
most rational `t_eps`, the embedding takes the step magnitude `delta` as its
parameter; `t_eps` is recovered as `delta * delta`, and theorems that speak
about `sqrt` characterise `delta` as the unique nonnegative square root of
`t_eps`.
-/

namespace RandomWalk

/-- The loop body's position update, source lines 35-39: one uniform draw `r`
moves the position up by `delta` when `r < p` and down by `delta` otherwise. -/
def rwStep (p delta r x : ℚ) : ℚ :=
  if r < p then x + delta else x - delta

/-- The do-while loop, source lines 31-43.  State is the position `x` and the
step counter `tic`.  Each iteration consumes one draw, updates `x`, increments
`tic`, and then evaluates the continuation test `(x < a) & (x > 0)`.  Returns
the final `(x, tic)` state, or `none` if the draw list runs out first. -/
def rwLoop (p delta a : ℚ) : List ℚ → ℚ → ℕ → Option (ℚ × ℕ)
  | [], _, _ => none
  | r :: rs, x, tic =>
    let x1 := if r < p then x + delta else x - delta
    if x1 < a ∧ 0 < x1 then rwLoop p delta a rs x1 (tic + 1)
    else some (x1, tic + 1)

/-- The sequence of `(x, tic)` states produced by the loop, one entry per
executed iteration (the state after the body of that iteration ran). -/
def rwTrace (p delta a : ℚ) : List ℚ → ℚ → ℕ → List (ℚ × ℕ)
  | [], _, _ => []
  | r :: rs, x, tic =>
    let x1 := if r < p then x + delta else x - delta
    (x1, tic + 1) ::
      (if x1 < a ∧ 0 < x1 then rwTrace p delta a rs x1 (tic + 1) else [])

/-- The whole function `random_walk`, source lines 17-53, with the step
magnitude `delta` standing for `sqrt(t_eps)` (so `t_eps = delta * delta`) and
the random source given as the list `draws`. -/
def random_walk (b a v delta : ℚ) (draws : List ℚ) : Option (ℤ × ℚ) :=
  let p := (1 / 2) * (1 + v * delta)
  let x := a * b
  match rwLoop p delta a draws x 0 with
  | none => none
  | some (xf, tic) =>
    some ((if xf > a then 1 else 0), (tic : ℚ) * (delta * delta))

/-! ### Basic loop lemmas -/

/-- Unfolding one iteration of the do-while loop: one draw is consumed, the
position is updated by `rwStep`, the counter goes up by one, and then the
continuation test is evaluated on the post-step position. -/
theorem rwLoop_cons (p delta a r : ℚ) (rs : List ℚ) (x : ℚ) (tic : ℕ) :
    rwLoop p delta a (r :: rs) x tic =
      if rwStep p delta r x < a ∧ 0 < rwStep p delta r x
      then rwLoop p delta a rs (rwStep p delta r x) (tic + 1)
      else some (rwStep p delta r x, tic + 1) := rfl

/-- Unfolding one entry of the state trace. -/
theorem rwTrace_cons (p delta a r : ℚ) (rs : List ℚ) (x : ℚ) (tic : ℕ) :
    rwTrace p delta a (r :: rs) x tic =
      (rwStep p delta r x, tic + 1) ::
        (if rwStep p delta r x < a ∧ 0 < rwStep p delta r x
         then rwTrace p delta a rs (rwStep p delta r x) (tic + 1) else []) := rfl

/-- When the loop returns, the final position is on or beyond a barrier. -/
theorem rwLoop_final_outside (p delta a : ℚ) :
    ∀ (draws : List ℚ) (x : ℚ) (tic : ℕ) (xf : ℚ) (tf : ℕ),
      rwLoop p delta a draws x tic = some (xf, tf) → xf ≤ 0 ∨ a ≤ xf := by
  intro draws
  induction draws with
  | nil => intro x tic xf tf h; simp [rwLoop] at h
  | cons r rs ih =>
    intro x tic xf tf h
    rw [rwLoop_cons] at h
    by_cases hc : rwStep p delta r x < a ∧ 0 < rwStep p delta r x
    · rw [if_pos hc] at h
      exact ih _ _ _ _ h
    · rw [if_neg hc] at h
      simp only [Option.some.injEq, Prod.mk.injEq] at h
      obtain ⟨rfl, rfl⟩ := h
      rcases not_and_or.mp hc with h1 | h2
      · exact Or.inr (le_of_not_lt h1)
      · exact Or.inl (le_of_not_lt h2)

/-- The final value of the step counter exceeds its initial value: the loop
body runs at least once. -/
theorem rwLoop_tic_lt (p delta a : ℚ) :
    ∀ (draws : List ℚ) (x : ℚ) (tic : ℕ) (xf : ℚ) (tf : ℕ),
      rwLoop p delta a draws x tic = some (xf, tf) → tic < tf := by
  intro draws
  induction draws with
  | nil => intro x tic xf tf h; simp [rwLoop] at h
  | cons r rs ih =>
    intro x tic xf tf h
    rw [rwLoop_cons] at h
    by_cases hc : rwStep p delta r x < a ∧ 0 < rwStep p delta r x
    · rw [if_pos hc] at h
      exact Nat.lt_of_succ_le (Nat.le_of_lt (ih _ _ _ _ h))
    · rw [if_neg hc] at h
      simp only [Option.some.injEq, Prod.mk.injEq] at h
      omega

/-- The final step counter counts exactly the executed iterations: it is the
initial counter plus the number of recorded trace states. -/
theorem rwLoop_tic_trace (p delta a : ℚ) :
    ∀ (draws : List ℚ) (x : ℚ) (tic : ℕ) (xf : ℚ) (tf : ℕ),
      rwLoop p delta a draws x tic = some (xf, tf) →
      tf = tic + (rwTrace p delta a draws x tic).length := by
  intro draws
  induction draws with
  | nil => intro x tic xf tf h; simp [rwLoop] at h
  | cons r rs ih =>
    intro x tic xf tf h
    rw [rwLoop_cons] at h
    rw [rwTrace_cons]
    by_cases hc : rwStep p delta r x < a ∧ 0 < rwStep p delta r x
    · rw [if_pos hc] at h
      rw [if_pos hc, List.length_cons]
      have := ih _ _ _ _ h
      omega
    · rw [if_neg hc] at h
      simp only [Option.some.injEq, Prod.mk.injEq] at h
      rw [if_neg hc]
      simp
      omega

/-- A run that finishes within a prefix of the draw stream is unchanged by
appending further draws. -/
theorem rwLoop_append (p delta a : ℚ) :
    ∀ (l l' : List ℚ) (x : ℚ) (tic : ℕ) (s : ℚ × ℕ),
      rwLoop p delta a l x tic = some s →
      rwLoop p delta a (l ++ l') x tic = some s := by
  intro l
  induction l with
  | nil => intro l' x tic s h; simp [rwLoop] at h
  | cons r rs ih =>
    intro l' x tic s h
    rw [rwLoop_cons] at h
    rw [List.cons_append, rwLoop_cons]
    by_cases hc : rwStep p delta r x < a ∧ 0 < rwStep p delta r x
    · rw [if_pos hc] at h
      rw [if_pos hc]
      exact ih _ _ _ _ h
    · rw [if_neg hc] at h
      rw [if_neg hc]
      exact h

/-- Overshoot invariant: starting strictly inside the interval, a finished run
ends strictly less than one step magnitude beyond the barrier it crossed. -/
theorem rwLoop_overshoot (p delta a : ℚ) (hd : 0 ≤ delta) :
    ∀ (draws : List ℚ) (x : ℚ) (tic : ℕ) (xf : ℚ) (tf : ℕ),
      0 < x → x < a →
      rwLoop p delta a draws x tic = some (xf, tf) →
      (-delta < xf ∧ xf ≤ 0) ∨ (a ≤ xf ∧ xf < a + delta) := by
  intro draws
  induction draws with
  | nil => intro x tic xf tf _ _ h; simp [rwLoop] at h
  | cons r rs ih =>
    intro x tic xf tf hx0 hxa h
    rw [rwLoop_cons] at h
    have hlow : -delta < rwStep p delta r x := by
      unfold rwStep
      split <;> linarith
    have hhigh : rwStep p delta r x < a + delta := by
      unfold rwStep
      split <;> linarith
    by_cases hc : rwStep p delta r x < a ∧ 0 < rwStep p delta r x
    · rw [if_pos hc] at h
      exact ih _ _ _ _ hc.2 hc.1 h
    · rw [if_neg hc] at h
      simp only [Option.some.injEq, Prod.mk.injEq] at h
      obtain ⟨rfl, rfl⟩ := h
      rcases not_and_or.mp hc with h1 | h2
      · exact Or.inr ⟨le_of_not_lt h1, hhigh⟩
      · exact Or.inl ⟨hlow, le_of_not_lt h2⟩

/-- A run in which every draw produces a downward step finishes within the
supplied draws as soon as they suffice to use up the starting position, and
the number of iterations is at most the number of supplied draws. -/
theorem rwLoop_all_down (p delta a : ℚ) :
    ∀ (rs : List ℚ) (r x : ℚ) (tic : ℕ),
      (∀ s ∈ r :: rs, ¬ s < p) →
      x ≤ delta * ((rs.length : ℚ) + 1) →
      ∃ xf tf, rwLoop p delta a (r :: rs) x tic = some (xf, tf) ∧
        tf ≤ tic + rs.length + 1 := by
  intro rs
  induction rs with
  | nil =>
    intro r x tic hall hx
    have hr : ¬ r < p := hall r (List.mem_cons_self r _)
    have hstep : rwStep p delta r x = x - delta := by
      unfold rwStep; rw [if_neg hr]
    have hle : rwStep p delta r x ≤ 0 := by
      rw [hstep]; simp at hx; linarith
    refine ⟨rwStep p delta r x, tic + 1, ?_, by omega⟩
    rw [rwLoop_cons, if_neg ?_]
    exact fun hc => absurd hc.2 (not_lt.mpr hle)
  | cons r2 rs2 ih =>
    intro r x tic hall hx
    have hr : ¬ r < p := hall r (List.mem_cons_self r _)
    have hstep : rwStep p delta r x = x - delta := by
      unfold rwStep; rw [if_neg hr]
    by_cases hc : rwStep p delta r x < a ∧ 0 < rwStep p delta r x
    · have hall2 : ∀ s ∈ r2 :: rs2, ¬ s < p :=
        fun s hs => hall s (List.mem_cons_of_mem r hs)
      have hx2 : rwStep p delta r x ≤ delta * ((rs2.length : ℚ) + 1) := by
        rw [hstep]
        simp only [List.length_cons] at hx
        push_cast at hx ⊢
        linarith
      obtain ⟨xf, tf, heq, hle⟩ := ih r2 (rwStep p delta r x) (tic + 1) hall2 hx2
      refine ⟨xf, tf, ?_, ?_⟩
      · rw [rwLoop_cons, if_pos hc]; exact heq
      · simp only [List.length_cons]; omega
    · refine ⟨rwStep p delta r x, tic + 1, ?_, ?_⟩
      · rw [rwLoop_cons, if_neg hc]
      · simp only [List.length_cons]; omega

/-- Mirror image of `rwLoop_all_down` for runs in which every draw produces an
upward step: the walk reaches the upper barrier within the supplied draws. -/
theorem rwLoop_all_up (p delta a : ℚ) :
    ∀ (rs : List ℚ) (r x : ℚ) (tic : ℕ),
      (∀ s ∈ r :: rs, s < p) →
      a - x ≤ delta * ((rs.length : ℚ) + 1) →
      ∃ xf tf, rwLoop p delta a (r :: rs) x tic = some (xf, tf) ∧
        tf ≤ tic + rs.length + 1 := by
  intro rs
  induction rs with
  | nil =>
    intro r x tic hall hx
    have hr : r < p := hall r (List.mem_cons_self r _)
    have hstep : rwStep p delta r x = x + delta := by
      unfold rwStep; rw [if_pos hr]
    have hge : a ≤ rwStep p delta r x := by
      rw [hstep]; simp at hx; linarith
    refine ⟨rwStep p delta r x, tic + 1, ?_, by omega⟩
    rw [rwLoop_cons, if_neg ?_]
    exact fun hc => absurd hc.1 (not_lt.mpr hge)
  | cons r2 rs2 ih =>
    intro r x tic hall hx
    have hr : r < p := hall r (List.mem_cons_self r _)
    have hstep : rwStep p delta r x = x + delta := by
      unfold rwStep; rw [if_pos hr]
    by_cases hc : rwStep p delta r x < a ∧ 0 < rwStep p delta r x
    · have hall2 : ∀ s ∈ r2 :: rs2, s < p :=
        fun s hs => hall s (List.mem_cons_of_mem r hs)
      have hx2 : a - rwStep p delta r x ≤ delta * ((rs2.length : ℚ) + 1) := by
        rw [hstep]
        simp only [List.length_cons] at hx
        push_cast at hx ⊢
        linarith
      obtain ⟨xf, tf, heq, hle⟩ := ih r2 (rwStep p delta r x) (tic + 1) hall2 hx2
      refine ⟨xf, tf, ?_, ?_⟩
      · rw [rwLoop_cons, if_pos hc]; exact heq
      · simp only [List.length_cons]; omega
    · refine ⟨rwStep p delta r x, tic + 1, ?_, ?_⟩
      · rw [rwLoop_cons, if_neg hc]
      · simp only [List.length_cons]; omega

/-- `random_walk` is the do-while loop started at position `a * b` with
counter `0`, followed by the classification and the time computation. -/
theorem random_walk_eq (b a v delta : ℚ) (draws : List ℚ) :
    random_walk b a v delta draws =
      Option.map
        (fun s => ((if a < s.1 then (1 : ℤ) else 0), (s.2 : ℚ) * (delta * delta)))
        (rwLoop ((1/2) * (1 + v * delta)) delta a draws (a * b) 0) := by
  simp only [random_walk]
  cases hE : rwLoop ((1/2) * (1 + v * delta)) delta a draws (a * b) 0 with
  | none => rfl
  | some s => cases s with | mk xf tf => rfl

/-! ### Claims -/

/-- C1: for every terminating run of `random_walk`, the outcome is classified
from the final position `x` as choice = 1 when `x > a` strictly and choice = 0
otherwise; in particular a final position exactly equal to `a` yields
choice = 0, and a final position `x > a` yields choice = 1. -/
theorem C1_boundary_classification (b a v delta : ℚ) (draws : List ℚ)
    (xf : ℚ) (tf : ℕ)
    (h : rwLoop ((1/2) * (1 + v * delta)) delta a draws (a * b) 0 = some (xf, tf)) :
    random_walk b a v delta draws =
      some ((if a < xf then 1 else 0), (tf : ℚ) * (delta * delta)) ∧
    (xf = a → (random_walk b a v delta draws).map Prod.fst = some 0) ∧
    (a < xf → (random_walk b a v delta draws).map Prod.fst = some 1) := by
  have he := random_walk_eq b a v delta draws
  rw [h] at he
  refine ⟨he, ?_, ?_⟩
  · intro hxa
    subst hxa
    rw [he]
    simp
  · intro hlt
    rw [he]
    simp [hlt]

theorem C1_witness :
    (random_walk (1/2) 1 0 (3/4) [4/10]).map Prod.fst = some 1 := by
  have h : rwLoop ((1/2) * (1 + 0 * (3/4))) (3/4) 1 [4/10] ((1 : ℚ) * (1/2)) 0 =
      some (5/4, 1) := by
    norm_num [rwLoop]
  exact (C1_boundary_classification (1/2) 1 0 (3/4) [4/10] (5/4) 1 h).2.2 (by norm_num)

/-- C2: the loop returns only after a step that leaves the position outside
the open interval (0, a): a finished run's final position satisfies `x ≤ 0`
or `x ≥ a`, never `0 < x < a`, and whenever the post-step position is still
strictly inside the interval, the loop continues with another iteration. -/
theorem C2_barrier_containment (p delta a : ℚ) (draws : List ℚ)
    (x xf : ℚ) (tic tf : ℕ)
    (h : rwLoop p delta a draws x tic = some (xf, tf)) :
    (xf ≤ 0 ∨ a ≤ xf) ∧ ¬ (0 < xf ∧ xf < a) ∧
    (∀ r rs y t, 0 < rwStep p delta r y → rwStep p delta r y < a →
      rwLoop p delta a (r :: rs) y t = rwLoop p delta a rs (rwStep p delta r y) (t + 1)) := by
  have h1 := rwLoop_final_outside p delta a draws x tic xf tf h
  refine ⟨h1, ?_, ?_⟩
  · rintro ⟨h2, h3⟩
    rcases h1 with h4 | h4 <;> linarith
  · intro r rs y t hy0 hya
    rw [rwLoop_cons, if_pos ⟨hya, hy0⟩]

theorem C2_witness : ((0 : ℚ) ≤ 0 ∨ (1 : ℚ) ≤ 0) ∧ ¬ (0 < (0 : ℚ) ∧ (0 : ℚ) < 1) := by
  have h : rwLoop (1/2) (1/2) 1 [6/10] (1/2) 0 = some (0, 1) := by
    norm_num [rwLoop]
  exact ⟨(C2_barrier_containment (1/2) (1/2) 1 [6/10] (1/2) 0 0 1 h).1,
         (C2_barrier_containment (1/2) (1/2) 1 [6/10] (1/2) 0 0 1 h).2.1⟩

/-- C3: when the step magnitude is positive (i.e. `t_eps > 0`), every
terminating run executed the loop body at least once — the counter of a
finished run is at least 1, whatever the starting position, a barrier
included — and the returned time is at least `t_eps = delta * delta`. -/
theorem C3_at_least_one_step (b a v delta : ℚ) (draws : List ℚ)
    (c : ℤ) (time : ℚ) (hdelta : 0 < delta)
    (h : random_walk b a v delta draws = some (c, time)) :
    delta * delta ≤ time ∧
    ∃ xf tf, rwLoop ((1/2) * (1 + v * delta)) delta a draws (a * b) 0 = some (xf, tf) ∧
      1 ≤ tf ∧ time = (tf : ℚ) * (delta * delta) := by
  have he := random_walk_eq b a v delta draws
  rw [h] at he
  cases hE : rwLoop ((1/2) * (1 + v * delta)) delta a draws (a * b) 0 with
  | none =>
    rw [hE] at he
    simp at he
  | some s =>
    cases s with
    | mk xf tf =>
      rw [hE] at he
      simp only [Option.map_some', Option.some.injEq, Prod.mk.injEq] at he
      have htf : 1 ≤ tf := rwLoop_tic_lt _ _ _ _ _ _ _ _ hE
      have htfQ : (1 : ℚ) ≤ (tf : ℚ) := by exact_mod_cast htf
      refine ⟨?_, xf, tf, rfl, htf, he.2⟩
      rw [he.2]
      nlinarith [mul_pos hdelta hdelta]

theorem C3_witness : (1/2 : ℚ) * (1/2) ≤ 1/4 := by
  have h : random_walk (1/2) 1 0 (1/2) [6/10] = some (0, 1/4) := by
    norm_num [random_walk, rwLoop]
  exact (C3_at_least_one_step (1/2) 1 0 (1/2) [6/10] 0 (1/4) (by norm_num) h).1

/-- C4: each loop iteration consumes exactly one draw `r`, moves the position
up by `delta` when `r < p` and down by `delta` otherwise — a draw exactly
equal to `p` moves down — and increments the counter by exactly 1, after
which the continuation test is evaluated. -/
theorem C4_step_update (p delta a r x : ℚ) (rs : List ℚ) (tic : ℕ) :
    (rwLoop p delta a (r :: rs) x tic =
      if rwStep p delta r x < a ∧ 0 < rwStep p delta r x
      then rwLoop p delta a rs (rwStep p delta r x) (tic + 1)
      else some (rwStep p delta r x, tic + 1)) ∧
    (r < p → rwStep p delta r x = x + delta) ∧
    (¬ r < p → rwStep p delta r x = x - delta) ∧
    rwStep p delta p x = x - delta := by
  refine ⟨rwLoop_cons p delta a r rs x tic, ?_, ?_, ?_⟩
  · intro hr
    unfold rwStep
    rw [if_pos hr]
  · intro hr
    unfold rwStep
    rw [if_neg hr]
  · unfold rwStep
    rw [if_neg (lt_irrefl p)]

theorem C4_witness : rwStep (1/2) (1/100) (1/2) (3/10) = 3/10 - 1/100 :=
  (C4_step_update (1/2) (1/100) 1 (1/2) (3/10) [] 0).2.2.2

/-- C5: with `delta` the unique nonnegative square root of `t_eps` (the exact
counterpart of `delta = sqrt(t_eps)`), `random_walk` is exactly the loop run
with the constants `p = 1/2 * (1 + v * delta)`, initial position `a * b` and
initial counter 0, the same `p` and `delta` at every step, and the returned
time is the final counter times `t_eps`. -/
theorem C5_constants (b a v t_eps delta : ℚ) (draws : List ℚ)
    (h0 : 0 ≤ delta) (h1 : delta * delta = t_eps) :
    (∀ d, 0 ≤ d → d * d = t_eps → d = delta) ∧
    random_walk b a v delta draws =
      Option.map
        (fun s => ((if a < s.1 then (1 : ℤ) else 0), (s.2 : ℚ) * t_eps))
        (rwLoop ((1/2) * (1 + v * delta)) delta a draws (a * b) 0) := by
  constructor
  · intro d hd hdd
    have hsq : d * d = delta * delta := by rw [h1, hdd]
    rcases mul_self_eq_mul_self_iff.mp hsq with h | h
    · exact h
    · have : delta ≤ 0 := by linarith
      have hz : delta = 0 := le_antisymm this h0
      rw [hz] at h ⊢
      simpa using h
  · rw [← h1]
    exact random_walk_eq b a v delta draws

theorem C5_witness :
    random_walk (1/2) 1 0 (1/2) [6/10] =
      Option.map
        (fun s => ((if (1 : ℚ) < s.1 then (1 : ℤ) else 0), (s.2 : ℚ) * (1/4)))
        (rwLoop ((1/2) * (1 + 0 * (1/2))) (1/2) 1 [6/10] ((1 : ℚ) * (1/2)) 0) :=
  (C5_constants (1/2) 1 0 (1/4) (1/2) [6/10] (by norm_num) (by norm_num)).2

/-- C6: a terminating run returns a pair whose first component is 0 or 1 and
whose second component is `tic * t_eps` where `tic` is the final counter,
which equals the number of loop iterations executed (the length of the state
trace). -/
theorem C6_return_shape (b a v delta : ℚ) (draws : List ℚ) (c : ℤ) (time : ℚ)
    (h : random_walk b a v delta draws = some (c, time)) :
    (c = 0 ∨ c = 1) ∧
    ∃ xf tf, rwLoop ((1/2) * (1 + v * delta)) delta a draws (a * b) 0 = some (xf, tf) ∧
      time = (tf : ℚ) * (delta * delta) ∧
      tf = (rwTrace ((1/2) * (1 + v * delta)) delta a draws (a * b) 0).length := by
  have he := random_walk_eq b a v delta draws
  rw [h] at he
  cases hE : rwLoop ((1/2) * (1 + v * delta)) delta a draws (a * b) 0 with
  | none =>
    rw [hE] at he
    simp at he
  | some s =>
    cases s with
    | mk xf tf =>
      have htr := rwLoop_tic_trace ((1/2) * (1 + v * delta)) delta a draws (a * b) 0 xf tf hE
      rw [hE] at he
      simp only [Option.map_some', Option.some.injEq, Prod.mk.injEq] at he
      refine ⟨?_, xf, tf, rfl, he.2, by simpa using htr⟩
      rw [he.1]
      by_cases hxa : a < xf
      · exact Or.inr (by rw [if_pos hxa])
      · exact Or.inl (by rw [if_neg hxa])

theorem C6_witness : ((0 : ℤ) = 0 ∨ (0 : ℤ) = 1) := by
  have h : random_walk (1/2) 1 0 (1/2) [4/10] = some (0, 1/4) := by
    norm_num [random_walk, rwLoop]
  exact (C6_return_shape (1/2) 1 0 (1/2) [4/10] 0 (1/4) h).1

/-- C7: under the preconditions `a > 0`, `t_eps > 0` (positive step
magnitude), `0 ≤ a*b ≤ a` and every draw in [0, 1): when `p` is exactly 0
every step moves down, when `p` is exactly 1 every step moves up, and in both
cases the loop finishes within `ceil(a/delta)` iterations (given at least
that many draws). -/
theorem C7_monotone_termination (b a v delta : ℚ) (draws : List ℚ)
    (ha : 0 < a) (hd : 0 < delta)
    (hx0 : 0 ≤ a * b) (hx1 : a * b ≤ a)
    (hdraws : ∀ r ∈ draws, 0 ≤ r ∧ r < 1)
    (hlen : (⌈a / delta⌉).toNat ≤ draws.length) :
    ((1/2) * (1 + v * delta) = 0 →
      (∀ r x, 0 ≤ r → rwStep ((1/2) * (1 + v * delta)) delta r x = x - delta) ∧
      ∃ xf tf, rwLoop ((1/2) * (1 + v * delta)) delta a draws (a * b) 0 = some (xf, tf) ∧
        tf ≤ (⌈a / delta⌉).toNat) ∧
    ((1/2) * (1 + v * delta) = 1 →
      (∀ r x, r < 1 → rwStep ((1/2) * (1 + v * delta)) delta r x = x + delta) ∧
      ∃ xf tf, rwLoop ((1/2) * (1 + v * delta)) delta a draws (a * b) 0 = some (xf, tf) ∧
        tf ≤ (⌈a / delta⌉).toNat) := by
  have hq : (0 : ℚ) < a / delta := div_pos ha hd
  have hcpos : 0 < ⌈a / delta⌉ := Int.ceil_pos.mpr hq
  have hN1 : 1 ≤ (⌈a / delta⌉).toNat := by omega
  have hcast : (((⌈a / delta⌉).toNat : ℕ) : ℚ) = ((⌈a / delta⌉ : ℤ) : ℚ) := by
    exact_mod_cast Int.toNat_of_nonneg (le_of_lt hcpos)
  have haN : a ≤ delta * (((⌈a / delta⌉).toNat : ℕ) : ℚ) := by
    have h1 : a / delta ≤ ((⌈a / delta⌉ : ℤ) : ℚ) := Int.le_ceil _
    rw [div_le_iff₀ hd] at h1
    rw [hcast]
    linarith
  have hlentake : (draws.take ((⌈a / delta⌉).toNat)).length = (⌈a / delta⌉).toNat := by
    rw [List.length_take]
    omega
  constructor
  · intro hp
    constructor
    · intro r x hr
      unfold rwStep
      rw [hp, if_neg (not_lt.mpr hr)]
    · cases hl : draws.take ((⌈a / delta⌉).toNat) with
      | nil => rw [hl] at hlentake; simp at hlentake; omega
      | cons r rs =>
        have hrsN : rs.length + 1 = (⌈a / delta⌉).toNat := by
          rw [hl] at hlentake
          simpa using hlentake
        have hall : ∀ s ∈ r :: rs, ¬ s < (1/2) * (1 + v * delta) := by
          intro s hs
          rw [hp]
          have hmem : s ∈ draws := List.mem_of_mem_take (hl ▸ hs)
          exact not_lt.mpr (hdraws s hmem).1
        have hbound : a * b ≤ delta * ((rs.length : ℚ) + 1) := by
          have : ((rs.length : ℚ) + 1) = (((⌈a / delta⌉).toNat : ℕ) : ℚ) := by
            exact_mod_cast hrsN
          rw [this]
          linarith
        obtain ⟨xf, tf, heq, hle⟩ :=
          rwLoop_all_down ((1/2) * (1 + v * delta)) delta a rs r (a * b) 0 hall hbound
        refine ⟨xf, tf, ?_, by omega⟩
        have happ := rwLoop_append ((1/2) * (1 + v * delta)) delta a
          (draws.take ((⌈a / delta⌉).toNat)) (draws.drop ((⌈a / delta⌉).toNat))
          (a * b) 0 (xf, tf) (by rw [hl]; exact heq)
        rwa [List.take_append_drop] at happ
  · intro hp
    constructor
    · intro r x hr
      unfold rwStep
      rw [hp, if_pos hr]
    · cases hl : draws.take ((⌈a / delta⌉).toNat) with
      | nil => rw [hl] at hlentake; simp at hlentake; omega
      | cons r rs =>
        have hrsN : rs.length + 1 = (⌈a / delta⌉).toNat := by
          rw [hl] at hlentake
          simpa using hlentake
        have hall : ∀ s ∈ r :: rs, s < (1/2) * (1 + v * delta) := by
          intro s hs
          rw [hp]
          have hmem : s ∈ draws := List.mem_of_mem_take (hl ▸ hs)
          exact (hdraws s hmem).2
        have hbound : a - a * b ≤ delta * ((rs.length : ℚ) + 1) := by
          have : ((rs.length : ℚ) + 1) = (((⌈a / delta⌉).toNat : ℕ) : ℚ) := by
            exact_mod_cast hrsN
          rw [this]
          linarith
        obtain ⟨xf, tf, heq, hle⟩ :=
          rwLoop_all_up ((1/2) * (1 + v * delta)) delta a rs r (a * b) 0 hall hbound
        refine ⟨xf, tf, ?_, by omega⟩
        have happ := rwLoop_append ((1/2) * (1 + v * delta)) delta a
          (draws.take ((⌈a / delta⌉).toNat)) (draws.drop ((⌈a / delta⌉).toNat))
          (a * b) 0 (xf, tf) (by rw [hl]; exact heq)
        rwa [List.take_append_drop] at happ

theorem C7_witness :
    ∃ xf tf,
      rwLoop ((1/2) * (1 + (-2) * (1/2))) (1/2) 1 [0, 0] ((1 : ℚ) * (1/2)) 0 =
        some (xf, tf) ∧
      tf ≤ (⌈(1 : ℚ) / (1/2)⌉).toNat := by
  have hlen : (⌈(1 : ℚ) / (1/2)⌉).toNat ≤ ([0, 0] : List ℚ).length := by
    have h2 : ((1 : ℚ) / (1/2)) = ((2 : ℤ) : ℚ) := by norm_num
    rw [h2, Int.ceil_intCast]
    simp
  exact ((C7_monotone_termination (1/2) 1 (-2) (1/2) [0, 0]
    (by norm_num) (by norm_num) (by norm_num) (by norm_num)
    (by intro r hr; simp at hr; subst hr; norm_num) hlen).1 (by norm_num)).2

/-- C8: determinism under fixed randomness: two runs with identical inputs
and identical draw sequences have the identical sequence of (x, tic) states
and the identical returned pair. -/
theorem C8_determinism (b a v delta : ℚ) (d1 d2 : List ℚ) (h : d1 = d2) :
    rwTrace ((1/2) * (1 + v * delta)) delta a d1 (a * b) 0 =
      rwTrace ((1/2) * (1 + v * delta)) delta a d2 (a * b) 0 ∧
    random_walk b a v delta d1 = random_walk b a v delta d2 := by
  subst h
  exact ⟨rfl, rfl⟩

theorem C8_witness :
    rwTrace ((1/2) * (1 + 0 * (1/2))) (1/2) 1 [6/10] ((1 : ℚ) * (1/2)) 0 =
      rwTrace ((1/2) * (1 + 0 * (1/2))) (1/2) 1 [6/10] ((1 : ℚ) * (1/2)) 0 ∧
    random_walk (1/2) 1 0 (1/2) [6/10] = random_walk (1/2) 1 0 (1/2) [6/10] :=
  C8_determinism (1/2) 1 0 (1/2) [6/10] [6/10] rfl

/-- C9: overshoot bound: a terminating run started strictly inside the
interval ends in (-delta, 0] or in [a, a + delta) — the final position
overshoots the crossed barrier by strictly less than one step magnitude. -/
theorem C9_overshoot (b a v delta : ℚ) (draws : List ℚ) (xf : ℚ) (tf : ℕ)
    (hd : 0 ≤ delta) (h0 : 0 < a * b) (h1 : a * b < a)
    (h : rwLoop ((1/2) * (1 + v * delta)) delta a draws (a * b) 0 = some (xf, tf)) :
    (-delta < xf ∧ xf ≤ 0) ∨ (a ≤ xf ∧ xf < a + delta) :=
  rwLoop_overshoot ((1/2) * (1 + v * delta)) delta a hd draws (a * b) 0 xf tf h0 h1 h

theorem C9_witness :
    (-(1/2 : ℚ) < 0 ∧ (0 : ℚ) ≤ 0) ∨ ((1 : ℚ) ≤ 0 ∧ (0 : ℚ) < 1 + 1/2) := by
  have h : rwLoop ((1/2) * (1 + 0 * (1/2))) (1/2) 1 [6/10] ((1 : ℚ) * (1/2)) 0 =
      some (0, 1) := by
    norm_num [rwLoop]
  exact C9_overshoot (1/2) 1 0 (1/2) [6/10] 0 1 (by norm_num) (by norm_num) (by norm_num) h

/-- C10: no range check on the start: with a nonnegative step magnitude and a
positive upper barrier, a start above `a + delta` makes the loop run exactly
one iteration whatever the draw and return choice 1 with time `t_eps`, and a
start below `-delta` makes it run exactly one iteration and return choice 0
with time `t_eps`. -/
theorem C10_out_of_range (b a v delta r : ℚ) (rs : List ℚ)
    (hd : 0 ≤ delta) (ha : 0 < a) :
    (a + delta < a * b →
      rwLoop ((1/2) * (1 + v * delta)) delta a (r :: rs) (a * b) 0 =
        some (rwStep ((1/2) * (1 + v * delta)) delta r (a * b), 1) ∧
      random_walk b a v delta (r :: rs) = some (1, delta * delta)) ∧
    (a * b < -delta →
      rwLoop ((1/2) * (1 + v * delta)) delta a (r :: rs) (a * b) 0 =
        some (rwStep ((1/2) * (1 + v * delta)) delta r (a * b), 1) ∧
      random_walk b a v delta (r :: rs) = some (0, delta * delta)) := by
  have hylb : a * b - delta ≤ rwStep ((1/2) * (1 + v * delta)) delta r (a * b) := by
    unfold rwStep
    split <;> linarith
  have hyub : rwStep ((1/2) * (1 + v * delta)) delta r (a * b) ≤ a * b + delta := by
    unfold rwStep
    split <;> linarith
  constructor
  · intro hb
    have hya : a < rwStep ((1/2) * (1 + v * delta)) delta r (a * b) := by linarith
    have hloop : rwLoop ((1/2) * (1 + v * delta)) delta a (r :: rs) (a * b) 0 =
        some (rwStep ((1/2) * (1 + v * delta)) delta r (a * b), 1) := by
      rw [rwLoop_cons, if_neg]
      rintro ⟨hc1, _⟩
      exact absurd hc1 (not_lt.mpr (le_of_lt hya))
    refine ⟨hloop, ?_⟩
    have he := random_walk_eq b a v delta (r :: rs)
    rw [hloop] at he
    rw [he]
    simp only [Option.map_some']
    rw [if_pos hya]
    norm_num
  · intro hb
    have hy0 : rwStep ((1/2) * (1 + v * delta)) delta r (a * b) < 0 := by linarith
    have hloop : rwLoop ((1/2) * (1 + v * delta)) delta a (r :: rs) (a * b) 0 =
        some (rwStep ((1/2) * (1 + v * delta)) delta r (a * b), 1) := by
      rw [rwLoop_cons, if_neg]
      rintro ⟨_, hc2⟩
      exact absurd hc2 (not_lt.mpr (le_of_lt hy0))
    refine ⟨hloop, ?_⟩
    have he := random_walk_eq b a v delta (r :: rs)
    rw [hloop] at he
    rw [he]
    have hna : ¬ a < rwStep ((1/2) * (1 + v * delta)) delta r (a * b) := by linarith
    simp only [Option.map_some']
    rw [if_neg hna]
    norm_num

theorem C10_witness :
    random_walk 3 1 0 (1/2) [0] = some (1, (1/2 : ℚ) * (1/2)) :=
  ((C10_out_of_range 3 1 0 (1/2) 0 [] (by norm_num) (by norm_num)).1 (by norm_num)).2

example : rwStep (1/2) (1/100) (6/10) 0 = -1/100 := by norm_num [rwStep]
example : random_walk (1/2) 1 0 (1/2) [4/10] = some (0, 1/4) := by
  norm_num [random_walk, rwLoop]
example : random_walk (1/2) 1 0 (3/4) [4/10] = some (1, 9/16) := by
  norm_num [random_walk, rwLoop]
example : random_walk (1/2) 1 0 (1/2) [6/10] = some (0, 1/4) := by
  norm_num [random_walk, rwLoop]
example : random_walk (1/2) 1 0 (1/4) [6/10] = none := by
  norm_num [random_walk, rwLoop]

end RandomWalk
